import Mathlib

/-!
Shallow embedding of the cnosdb tombstone store (`tskv/src/tsm/tombstone.rs`),
the copy-vnode DDL task (`query/src/execution/ddl/copy_vnode.rs`) and the
replication network client (`replication/src/network_client.rs`), with
theorems checking the natural-language specification against them.

Machine integers are modelled as `Nat` (u64) and `Int` (i64); byte strings as
`List Nat` with each element a byte value.  Stateful code is modelled by explicit
state passing; fallible code returns `Except`.
-/

set_option autoImplicit false

/-- A field identifier (`models::FieldId`, a `u64`). -/
abbrev FieldId := Nat

/-- Modelled from the spec: `TimeRange` of `models::predicate::domain` (not
under `src/`), a closed timestamp interval `[min_ts, max_ts]` with `i64`
bounds. -/
structure TimeRange where
  min_ts : Int
  max_ts : Int
deriving DecidableEq, Repr

/-- Modelled from the spec: `TimeRange::overlaps` (not under `src/`).  Per the
spec a point `t` is covered by `(a, b)` iff `a ≤ t ≤ b`; two closed intervals
overlap iff each starts no later than the other ends. -/
def TimeRange.overlaps (self other : TimeRange) : Bool :=
  decide (self.min_ts ≤ other.max_ts) && decide (self.max_ts ≥ other.min_ts)

/-- The in-memory tombstone cache `HashMap<FieldId, Vec<TimeRange>>`, modelled
as an association list with first-match lookup. -/
abbrev TombstoneMap := List (FieldId × List TimeRange)

/-- Rust `HashMap::get`: the value of the first entry with the given key. -/
def mapGet : TombstoneMap → FieldId → Option (List TimeRange)
  | [], _ => none
  | (k, v) :: rest, f => if k = f then some v else mapGet rest f

/-- Rust `map.entry(f).or_default().push(tr)`: push `tr` onto the vector stored at
`f`, inserting an entry holding `[tr]` when `f` is absent. -/
def entryOrDefaultPush : TombstoneMap → FieldId → TimeRange → TombstoneMap
  | [], f, tr => [(f, [tr])]
  | (k, v) :: rest, f, tr =>
    if k = f then (k, v ++ [tr]) :: rest
    else (k, v) :: entryOrDefaultPush rest f tr

/-- The stored ranges of a field id, the empty list when the entry is absent. -/
def mapGetD (m : TombstoneMap) (f : FieldId) : List TimeRange :=
  (mapGet m f).getD []

/-- Constant `ENTRY_LEN`: a tombstone record payload is 24 bytes. -/
def ENTRY_LEN : Nat := 24

/-- Rust `u64::to_be_bytes`: the eight big-endian bytes of a `u64` value. -/
def u64_to_be_bytes (n : Nat) : List Nat :=
  [n / 2 ^ 56 % 256, n / 2 ^ 48 % 256, n / 2 ^ 40 % 256, n / 2 ^ 32 % 256,
   n / 2 ^ 24 % 256, n / 2 ^ 16 % 256, n / 2 ^ 8 % 256, n % 256]

/-- Rust `i64::to_be_bytes`: the eight big-endian bytes of the two-complement
representation of an `i64` value. -/
def i64_to_be_bytes (i : Int) : List Nat :=
  u64_to_be_bytes (i % (2 ^ 64 : Int)).toNat

/-- Modelled from the spec: `byte_utils::decode_be_u64` (not under `src/`),
big-endian decoding of eight bytes to a `u64`. -/
def decode_be_u64 (bs : List Nat) : Nat :=
  bs.foldl (fun acc b => acc * 256 + b) 0

/-- Modelled from the spec: `byte_utils::decode_be_i64` (not under `src/`),
big-endian two-complement decoding of eight bytes to an `i64`. -/
def decode_be_i64 (bs : List Nat) : Int :=
  if decode_be_u64 bs < 2 ^ 63 then (decode_be_u64 bs : Int)
  else (decode_be_u64 bs : Int) - 2 ^ 64

/-- One outcome of `record_file::Reader::read_record`, as matched by
`TsmTombstone::load_all`: a CRC-valid payload, end of file, a CRC mismatch
(`Error::RecordFileHashCheckFailed`), or any other error. -/
inductive ReadResult where
  | ok (data : List Nat)
  | eof
  | hashCheckFailed
  | otherErr
deriving DecidableEq, Repr

/-- Source `TsmTombstone::load_all`: rebuild the in-memory map from the record
stream.  CRC failures are skipped, `Eof` ends the scan, a payload shorter than
`ENTRY_LEN` ends the scan, other errors abort, and each well-formed payload
decodes to `(field_id, min_ts, max_ts)` pushed into the map. -/
def load_all : List ReadResult → TombstoneMap → Except Unit TombstoneMap
  | [], tombstones => Except.ok tombstones
  | ReadResult.eof :: _, tombstones => Except.ok tombstones
  | ReadResult.hashCheckFailed :: rest, tombstones => load_all rest tombstones
  | ReadResult.otherErr :: _, _ => Except.error ()
  | ReadResult.ok data :: rest, tombstones =>
    if data.length < ENTRY_LEN then Except.ok tombstones
    else
      let field_id := decode_be_u64 (data.take 8)
      let min_ts := decode_be_i64 ((data.drop 8).take 8)
      let max_ts := decode_be_i64 ((data.drop 16).take 8)
      load_all rest (entryOrDefaultPush tombstones field_id ⟨min_ts, max_ts⟩)

/-- The tombstone store: the in-memory map plus the record payloads appended
to the sidecar file so far (the durable state the record-file writer holds). -/
structure TsmTombstone where
  tombstones : TombstoneMap
  file : List (List Nat)
deriving DecidableEq, Repr

/-- The 24-byte record payload `add_range` assembles in `write_buf`:
`field_id` as u64 BE, then `min_ts` and `max_ts` as i64 BE. -/
def tombstone_record (field_id : FieldId) (time_range : TimeRange) : List Nat :=
  u64_to_be_bytes field_id ++ i64_to_be_bytes time_range.min_ts ++
    i64_to_be_bytes time_range.max_ts

/-- Source `TsmTombstone::add_range`: for each field id in order, skip it when a
bloom filter is supplied that does not contain its 8-byte BE encoding;
otherwise append one record to the file and push the range into the map under
that field id.  The bloom filter (`utils::BloomFilter`, not under `src/`) is
modelled from the spec as its `contains` predicate on byte strings. -/
def TsmTombstone.add_range (self : TsmTombstone) (field_ids : List FieldId)
    (time_range : TimeRange) (bloom_filter : Option (List Nat → Bool)) :
    TsmTombstone :=
  match field_ids with
  | [] => self
  | field_id :: rest =>
    let keep := match bloom_filter with
      | some filter => filter (u64_to_be_bytes field_id)
      | none => true
    if keep then
      TsmTombstone.add_range
        ⟨entryOrDefaultPush self.tombstones field_id time_range,
         self.file ++ [tombstone_record field_id time_range]⟩
        rest time_range bloom_filter
    else
      TsmTombstone.add_range self rest time_range bloom_filter

/-- Source `TsmTombstone::flush`: a durability barrier; the logical file content is
unchanged. -/
def TsmTombstone.flush (self : TsmTombstone) : TsmTombstone := self

/-- Source `TsmTombstone::open` on an existing file, rebuilding the map via
`load_all`.  Modelled from the spec: the record-file codec (not under `src/`)
returns each appended payload CRC-valid, then `Eof`. -/
def TsmTombstone.openTombstone (file : List (List Nat)) :
    Except Unit TsmTombstone :=
  (load_all (file.map ReadResult.ok) []).map (fun m => ⟨m, file⟩)

/-- Source `TsmTombstone::overlaps`: whether any stored range of the field id
overlaps the queried range. -/
def TsmTombstone.overlaps (self : TsmTombstone) (field_id : FieldId)
    (time_range : TimeRange) : Bool :=
  match mapGet self.tombstones field_id with
  | some time_ranges => time_ranges.any (fun t => t.overlaps time_range)
  | none => false

/-- Source `TsmTombstone::get_overlapped_time_ranges`: the stored ranges of the field
id that overlap the query, or `none` when there are none. -/
def TsmTombstone.get_overlapped_time_ranges (self : TsmTombstone)
    (field_id : FieldId) (time_range : TimeRange) : Option (List TimeRange) :=
  match mapGet self.tombstones field_id with
  | some time_ranges =>
    let trs := time_ranges.filter (fun t => t.overlaps time_range)
    if trs.isEmpty then none else some trs
  | none => none

/-- Modelled from the spec: a TSM `DataBlock` (not under `src/`) holds the
timestamps of the points of one field; values travel with their timestamps and are
excluded alongside them, so only the timestamps are modelled. -/
abbrev DataBlock := List Int

/-- Modelled from the spec: `DataBlock::time_range` (not under `src/`), the
`(min_ts, max_ts)` of the block, `none` when the block is empty. -/
def DataBlock.time_range : DataBlock → Option (Int × Int)
  | [] => none
  | t :: ts => some (ts.foldl min t, ts.foldl max t)

/-- Modelled from the spec: `DataBlock::exclude` (not under `src/`), removing
every timestamp covered by the given range. -/
def DataBlock.exclude (b : DataBlock) (tr : TimeRange) : DataBlock :=
  b.filter (fun t => !(decide (tr.min_ts ≤ t) && decide (t ≤ tr.max_ts)))

/-- Source `TsmTombstone::data_block_exclude_tombstones`: for each stored range of
the field id overlapping the time range of the block, excise it from the block. -/
def TsmTombstone.data_block_exclude_tombstones (self : TsmTombstone)
    (field_id : FieldId) (data_block : DataBlock) : DataBlock :=
  match data_block.time_range with
  | none => data_block
  | some tr_tuple =>
    let time_range : TimeRange := ⟨tr_tuple.1, tr_tuple.2⟩
    match mapGet self.tombstones field_id with
    | none => data_block
    | some time_ranges =>
      (time_ranges.filter (fun t => t.overlaps time_range)).foldl
        DataBlock.exclude data_block

/-- Type `coordinator::VnodeManagerCmdType`, restricted to the two commands the
copy-vnode task issues. -/
inductive VnodeManagerCmdType where
  | Copy (vnode_id : Nat) (node_id : Nat)
  | AddRaftFollower (replica_id : Nat) (node_id : Nat)
deriving DecidableEq, Repr

/-- Type `spi::query::logical_planner::CopyVnode`, the statement of the task. -/
structure CopyVnode where
  vnode_id : Nat
  node_id : Nat
deriving DecidableEq, Repr

/-- Modelled from the spec: the vnode metadata record returned by
`coordinator::get_vnode_all_info` (not under `src/`); only its replica-set id
is read. -/
structure VnodeAllInfo where
  repl_set_id : Nat
deriving DecidableEq, Repr

/-- Type `spi::query::execution::Output`, restricted to the `Nil` variant the task
produces. -/
inductive Output where
  | Nil
deriving DecidableEq, Repr

/-- Modelled from the spec: the environment the copy-vnode task reads — the
replication mode of the coordinator, the metadata lookup of a vnode, and the
effect of issuing a vnode-manager command (each lookup or command may fail). -/
structure QueryStateMachine where
  using_raft_replication : Bool
  get_vnode_all_info : Nat → Except Unit VnodeAllInfo
  vnode_manager : VnodeManagerCmdType → Except Unit Unit

/-- Source `CopyVnodeTask::execute`: in raft mode resolve the replica-set id of the vnode
and issue `AddRaftFollower(replica_id, node_id)`, otherwise issue
`Copy(vnode_id, node_id)`; on success return `Output::Nil`.  The issued
command is returned alongside the output as the observable effect. -/
def CopyVnodeTask.execute (stmt : CopyVnode) (qsm : QueryStateMachine) :
    Except Unit (Output × VnodeManagerCmdType) :=
  if qsm.using_raft_replication then
    match qsm.get_vnode_all_info stmt.vnode_id with
    | Except.error e => Except.error e
    | Except.ok vnode_all_info =>
      let cmd_type :=
        VnodeManagerCmdType.AddRaftFollower vnode_all_info.repl_set_id
          stmt.node_id
      match qsm.vnode_manager cmd_type with
      | Except.error e => Except.error e
      | Except.ok _ => Except.ok (Output.Nil, cmd_type)
  else
    let cmd_type := VnodeManagerCmdType.Copy stmt.vnode_id stmt.node_id
    match qsm.vnode_manager cmd_type with
    | Except.error e => Except.error e
    | Except.ok _ => Except.ok (Output.Nil, cmd_type)

/-- A `tonic` channel handle.  Modelled from the spec: dialling is opaque, so
a channel is an abstract token. -/
abbrev Channel := Nat

/-- The shared `conn_map: HashMap<String, Channel>` of `NetworkConn`,
modelled as an association list with first-match lookup.  All clones of a
`NetworkConn` hold the same `Arc` to this map, so the model threads a single
map through every client. -/
abbrev ConnMap := List (String × Channel)

/-- Rust `HashMap::get` on the connection map. -/
def connMapGet : ConnMap → String → Option Channel
  | [], _ => none
  | (k, v) :: rest, addr => if k = addr then some v else connMapGet rest addr

/-- Rust `HashMap::insert` on the connection map: replace the first entry with the
key, or append a new entry. -/
def connMapInsert : ConnMap → String → Channel → ConnMap
  | [], addr, c => [(addr, c)]
  | (k, v) :: rest, addr, c =>
    if k = addr then (k, c) :: rest
    else (k, v) :: connMapInsert rest addr c

/-- Modelled from the spec: the effect of `Endpoint::from_shared` plus
`Endpoint::connect` (not under `src/`) — dialling an address yields a channel
or a network error. -/
structure DialEnv where
  dial : String → Except Unit Channel

/-- Source `NetworkConn::get_conn`: return the cached channel for the address when
present; otherwise dial the endpoint, insert the channel under the address,
and return it. -/
def NetworkConn.get_conn (env : DialEnv) (conn_map : ConnMap) (addr : String) :
    Except Unit (Channel × ConnMap) :=
  match connMapGet conn_map addr with
  | some val => Except.ok (val, conn_map)
  | none =>
    match env.dial addr with
    | Except.error e => Except.error e
    | Except.ok channel =>
      Except.ok (channel, connMapInsert conn_map addr channel)

/-- Type `RaftNodeInfo`: address and replica-group id of the target node. -/
structure RaftNodeInfo where
  address : String
  group_id : Nat
deriving DecidableEq, Repr

/-- Type `TargetClient`, the per-target raft network client built by
`NetworkConn::new_client`; its `conn` is the shared `NetworkConn`, modelled
by the explicitly threaded `ConnMap`. -/
structure TargetClient where
  target : Nat
  target_node : RaftNodeInfo
  grpc_enable_gzip : Bool
deriving DecidableEq, Repr

/-- The group-id envelope each RPC sends (`RaftVoteReq`,
`RaftAppendEntriesReq`, `RaftSnapshotReq`): the serialized payload, modelled
opaquely, plus the `group_id` of the target node. -/
structure GroupEnvelope where
  data : String
  group_id : Nat
deriving DecidableEq, Repr

/-- Source `TargetClient::send_vote`, up to the network boundary: obtain the channel
for the target address through `get_conn` and build the `RaftVoteReq`
envelope carrying the payload and the `group_id` of the target node. -/
def TargetClient.send_vote (client : TargetClient) (env : DialEnv)
    (conn_map : ConnMap) (req_data : String) :
    Except Unit (GroupEnvelope × Channel × ConnMap) :=
  match NetworkConn.get_conn env conn_map client.target_node.address with
  | Except.error e => Except.error e
  | Except.ok (channel, conn_map2) =>
    Except.ok (⟨req_data, client.target_node.group_id⟩, channel, conn_map2)

/-- Source `TargetClient::send_append_entries`, up to the network boundary: channel
through `get_conn`, envelope `RaftAppendEntriesReq` with the `group_id` of the target node. -/
def TargetClient.send_append_entries (client : TargetClient) (env : DialEnv)
    (conn_map : ConnMap) (req_data : String) :
    Except Unit (GroupEnvelope × Channel × ConnMap) :=
  match NetworkConn.get_conn env conn_map client.target_node.address with
  | Except.error e => Except.error e
  | Except.ok (channel, conn_map2) =>
    Except.ok (⟨req_data, client.target_node.group_id⟩, channel, conn_map2)

/-- Source `TargetClient::send_install_snapshot`, up to the network boundary:
channel through `get_conn`, envelope `RaftSnapshotReq` with the `group_id` of the target node. -/
def TargetClient.send_install_snapshot (client : TargetClient) (env : DialEnv)
    (conn_map : ConnMap) (req_data : String) :
    Except Unit (GroupEnvelope × Channel × ConnMap) :=
  match NetworkConn.get_conn env conn_map client.target_node.address with
  | Except.error e => Except.error e
  | Except.ok (channel, conn_map2) =>
    Except.ok (⟨req_data, client.target_node.group_id⟩, channel, conn_map2)

/- Helper lemmas about the tombstone map. -/

theorem mapGetD_cons (k : FieldId) (v : List TimeRange) (rest : TombstoneMap)
    (f : FieldId) :
    mapGetD ((k, v) :: rest) f = if k = f then v else mapGetD rest f := by
  by_cases h : k = f <;> simp [mapGetD, mapGet, h]

theorem mapGetD_entryOrDefaultPush (m : TombstoneMap) (g f : FieldId)
    (r : TimeRange) :
    mapGetD (entryOrDefaultPush m g r) f =
      if g = f then mapGetD m f ++ [r] else mapGetD m f := by
  induction m with
  | nil =>
    by_cases hgf : g = f <;>
      simp [entryOrDefaultPush, mapGetD, mapGet, hgf]
  | cons kv rest ih =>
    obtain ⟨k, v⟩ := kv
    by_cases hkg : k = g
    · rw [entryOrDefaultPush, if_pos hkg]
      by_cases hkf : k = f
      · rw [hkg] at hkf
        simp [mapGetD_cons, hkg, hkf]
      · have hgf : ¬ g = f := fun h => hkf (hkg.trans h)
        simp [mapGetD_cons, hkg, hkf, hgf]
    · rw [entryOrDefaultPush, if_neg hkg]
      by_cases hkf : k = f
      · have hgf : ¬ g = f := fun h => hkg (hkf.trans h.symm)
        simp [mapGetD_cons, hkf, hgf]
      · simp [mapGetD_cons, hkf, ih]

theorem overlaps_eq_any (s : TsmTombstone) (f : FieldId) (q : TimeRange) :
    s.overlaps f q = (mapGetD s.tombstones f).any (fun t => t.overlaps q) := by
  unfold TsmTombstone.overlaps mapGetD
  cases mapGet s.tombstones f <;> simp

theorem add_range_cons_none (s : TsmTombstone) (g : FieldId)
    (gs : List FieldId) (r : TimeRange) :
    s.add_range (g :: gs) r none =
      TsmTombstone.add_range
        ⟨entryOrDefaultPush s.tombstones g r,
         s.file ++ [tombstone_record g r]⟩ gs r none := rfl

theorem add_range_cons_some (s : TsmTombstone) (g : FieldId)
    (gs : List FieldId) (r : TimeRange) (fl : List Nat → Bool) :
    s.add_range (g :: gs) r (some fl) =
      if fl (u64_to_be_bytes g) then
        TsmTombstone.add_range
          ⟨entryOrDefaultPush s.tombstones g r,
           s.file ++ [tombstone_record g r]⟩ gs r (some fl)
      else s.add_range gs r (some fl) := rfl

theorem add_range_none_tombstones (fids : List FieldId) (s : TsmTombstone)
    (r : TimeRange) :
    (s.add_range fids r none).tombstones =
      fids.foldl (fun m2 g => entryOrDefaultPush m2 g r) s.tombstones := by
  induction fids generalizing s with
  | nil => rfl
  | cons g gs ih =>
    rw [add_range_cons_none, List.foldl_cons]
    exact ih ⟨entryOrDefaultPush s.tombstones g r,
      s.file ++ [tombstone_record g r]⟩

theorem add_range_none_file (fids : List FieldId) (s : TsmTombstone)
    (r : TimeRange) :
    (s.add_range fids r none).file =
      s.file ++ fids.map (fun f => tombstone_record f r) := by
  induction fids generalizing s with
  | nil => simp [TsmTombstone.add_range]
  | cons g gs ih =>
    rw [add_range_cons_none,
      ih ⟨entryOrDefaultPush s.tombstones g r,
        s.file ++ [tombstone_record g r]⟩]
    simp

theorem add_range_some_eq_filter (fids : List FieldId) (s : TsmTombstone)
    (r : TimeRange) (fl : List Nat → Bool) :
    s.add_range fids r (some fl) =
      s.add_range (fids.filter (fun f => fl (u64_to_be_bytes f))) r none := by
  induction fids generalizing s with
  | nil => rfl
  | cons g gs ih =>
    by_cases hk : fl (u64_to_be_bytes g)
    · have hfil : List.filter (fun f => fl (u64_to_be_bytes f)) (g :: gs)
          = g :: List.filter (fun f => fl (u64_to_be_bytes f)) gs := by
        simp [List.filter_cons, hk]
      rw [add_range_cons_some, if_pos hk, hfil, add_range_cons_none]
      exact ih ⟨entryOrDefaultPush s.tombstones g r,
        s.file ++ [tombstone_record g r]⟩
    · have hfil : List.filter (fun f => fl (u64_to_be_bytes f)) (g :: gs)
          = List.filter (fun f => fl (u64_to_be_bytes f)) gs := by
        simp [List.filter_cons, hk]
      rw [add_range_cons_some, if_neg hk, hfil]
      exact ih s

theorem mapGetD_foldl_push (r : TimeRange) (fids : List FieldId)
    (m : TombstoneMap) (f : FieldId) :
    mapGetD (fids.foldl (fun m2 g => entryOrDefaultPush m2 g r) m) f =
      mapGetD m f ++
        (fids.filter (fun g => decide (g = f))).map (fun _ => r) := by
  induction fids generalizing m with
  | nil => simp
  | cons g gs ih =>
    by_cases hgf : g = f
    · simp [List.foldl_cons, ih, mapGetD_entryOrDefaultPush, hgf]
    · simp [List.foldl_cons, ih, mapGetD_entryOrDefaultPush, hgf]

theorem foldl_min_le_init (ts : List Int) (t : Int) : ts.foldl min t ≤ t := by
  induction ts generalizing t with
  | nil => simp
  | cons u us ih => exact le_trans (ih (min t u)) (min_le_left t u)

theorem foldl_min_le_mem (ts : List Int) (t x : Int) (hx : x ∈ ts) :
    ts.foldl min t ≤ x := by
  induction ts generalizing t with
  | nil => cases hx
  | cons u us ih =>
    rcases List.mem_cons.mp hx with h | h
    · subst h
      exact le_trans (foldl_min_le_init us (min t x)) (min_le_right t x)
    · exact ih _ h

theorem le_foldl_max_init (ts : List Int) (t : Int) : t ≤ ts.foldl max t := by
  induction ts generalizing t with
  | nil => simp
  | cons u us ih => exact le_trans (le_max_left t u) (ih (max t u))

theorem le_foldl_max_mem (ts : List Int) (t x : Int) (hx : x ∈ ts) :
    x ≤ ts.foldl max t := by
  induction ts generalizing t with
  | nil => cases hx
  | cons u us ih =>
    rcases List.mem_cons.mp hx with h | h
    · subst h
      exact le_trans (le_max_right t x) (le_foldl_max_init us (max t x))
    · exact ih _ h

theorem foldl_exclude_eq_filter (l : List TimeRange) (b : DataBlock) :
    l.foldl DataBlock.exclude b
      = b.filter (fun ts =>
          !(l.any (fun tr =>
            decide (tr.min_ts ≤ ts) && decide (ts ≤ tr.max_ts)))) := by
  induction l generalizing b with
  | nil => simp
  | cons tr rest ih =>
    rw [List.foldl_cons, ih]
    unfold DataBlock.exclude
    rw [List.filter_filter]
    apply List.filter_congr
    intro ts _
    simp only [List.any_cons, Bool.not_or]
    cases h1 : (decide (tr.min_ts ≤ ts) && decide (ts ≤ tr.max_ts)) <;>
      cases h2 : rest.any
        (fun tr => decide (tr.min_ts ≤ ts) && decide (ts ≤ tr.max_ts)) <;>
        simp [h1, h2]

theorem any_cover_filter_overlap (trs : List TimeRange) (mn mx x : Int)
    (h1 : mn ≤ x) (h2 : x ≤ mx) :
    ((trs.filter (fun t => t.overlaps ⟨mn, mx⟩)).any
        (fun tr => decide (tr.min_ts ≤ x) && decide (x ≤ tr.max_ts)))
      = trs.any (fun tr => decide (tr.min_ts ≤ x) && decide (x ≤ tr.max_ts)) := by
  induction trs with
  | nil => rfl
  | cons tr rest ih =>
    by_cases hov : tr.overlaps ⟨mn, mx⟩
    · simp [List.filter_cons, hov, List.any_cons, ih]
    · have hcov : (decide (tr.min_ts ≤ x) && decide (x ≤ tr.max_ts)) = false := by
        simp [TimeRange.overlaps] at hov
        simp only [Bool.and_eq_false_iff, decide_eq_false_iff_not]
        omega
      simp [List.filter_cons, hov, List.any_cons, ih, hcov]

theorem data_block_exclude_cons (s : TsmTombstone) (f : FieldId) (t : Int)
    (ts : List Int) :
    s.data_block_exclude_tombstones f (t :: ts) =
      match mapGet s.tombstones f with
      | none => t :: ts
      | some time_ranges =>
        (time_ranges.filter
          (fun tr => tr.overlaps ⟨ts.foldl min t, ts.foldl max t⟩)).foldl
          DataBlock.exclude (t :: ts) := rfl

theorem decode_encode_u64 (n : Nat) (h : n < 2 ^ 64) :
    decode_be_u64 (u64_to_be_bytes n) = n := by
  simp [decode_be_u64, u64_to_be_bytes, List.foldl]
  omega

theorem decode_encode_i64 (i : Int) (h1 : -2 ^ 63 ≤ i) (h2 : i < 2 ^ 63) :
    decode_be_i64 (i64_to_be_bytes i) = i := by
  have hu : (i % (2 ^ 64 : Int)).toNat < 2 ^ 64 := by omega
  unfold decode_be_i64 i64_to_be_bytes
  rw [decode_encode_u64 _ hu]
  split_ifs with hlt <;> omega

theorem take8_append (a b : List Nat) (h : a.length = 8) :
    (a ++ b).take 8 = a := by
  rw [← h, List.take_left]

theorem drop8_append (a b : List Nat) (h : a.length = 8) :
    (a ++ b).drop 8 = b := by
  rw [← h, List.drop_left]

theorem u64_to_be_bytes_length (n : Nat) : (u64_to_be_bytes n).length = 8 := rfl

theorem i64_to_be_bytes_length (i : Int) : (i64_to_be_bytes i).length = 8 := rfl

theorem connMapGet_insert (m : ConnMap) (addr : String) (c : Channel) :
    connMapGet (connMapInsert m addr c) addr = some c := by
  induction m with
  | nil => simp [connMapInsert, connMapGet]
  | cons kv rest ih =>
    obtain ⟨k, v⟩ := kv
    by_cases h : k = addr
    · simp [connMapInsert, connMapGet, h]
    · simp [connMapInsert, connMapGet, h, ih]

/- Claim theorems. -/

set_option maxRecDepth 4000 in
/-- Claim C1: spec scenario S2.  From an empty tombstone store,
`add_range([1,2,3], TimeRange[1,100], no bloom filter)`, `flush`, then
reopening the store from the same file yields `overlaps(1, [2,99]) = true`,
`overlaps(2, [2,99]) = true` and `overlaps(3, [101,103]) = false`. -/
theorem tombstone_s2_roundtrip :
    (TsmTombstone.openTombstone
      ((TsmTombstone.add_range ⟨[], []⟩ [1, 2, 3] ⟨1, 100⟩ none).flush.file)).map
      (fun t => (t.overlaps 1 ⟨2, 99⟩, t.overlaps 2 ⟨2, 99⟩,
        t.overlaps 3 ⟨101, 103⟩))
    = Except.ok (true, true, false) := by rfl

/-- Claim C2: function `data_block_exclude_tombstones(field_id, block)` removes from
the block exactly those timestamps `t` for which some stored tombstone range
`(a, b)` of `field_id` satisfies `a ≤ t ≤ b`; uncovered timestamps remain,
and a block with no overlapping range is left unchanged. -/
theorem data_block_exclude_exact (s : TsmTombstone) (f : FieldId)
    (b : DataBlock) :
    s.data_block_exclude_tombstones f b
      = b.filter (fun ts =>
          !((mapGetD s.tombstones f).any
            (fun tr => decide (tr.min_ts ≤ ts) && decide (ts ≤ tr.max_ts)))) := by
  cases b with
  | nil => rfl
  | cons t ts =>
    rw [data_block_exclude_cons]
    cases hm : mapGet s.tombstones f with
    | none =>
      dsimp only
      simp [mapGetD, hm, List.filter_true]
    | some trs =>
      dsimp only
      rw [foldl_exclude_eq_filter]
      apply List.filter_congr
      intro x hx
      have hmn : ts.foldl min t ≤ x := by
        rcases List.mem_cons.mp hx with h | h
        · subst h; exact foldl_min_le_init ts x
        · exact foldl_min_le_mem ts t x h
      have hmx : x ≤ ts.foldl max t := by
        rcases List.mem_cons.mp hx with h | h
        · subst h; exact le_foldl_max_init ts x
        · exact le_foldl_max_mem ts t x h
      rw [mapGetD, hm]
      simp only [Option.getD_some]
      rw [any_cover_filter_overlap trs _ _ x hmn hmx]

/-- Claim C3: in `add_range`, when a bloom filter is supplied exactly the
field ids whose 8-byte big-endian encoding the filter contains get one
record appended and the range pushed into the map, the others are skipped
entirely; without a filter every field id gets both. -/
theorem add_range_bloom_skip (s : TsmTombstone) (fids : List FieldId)
    (r : TimeRange) (fl : List Nat → Bool) :
    s.add_range fids r (some fl)
        = s.add_range (fids.filter (fun f => fl (u64_to_be_bytes f))) r none
      ∧ (s.add_range fids r none).file
        = s.file ++ fids.map (fun f => tombstone_record f r)
      ∧ (s.add_range fids r none).tombstones
        = fids.foldl (fun m g => entryOrDefaultPush m g r) s.tombstones :=
  ⟨add_range_some_eq_filter fids s r fl, add_range_none_file fids s r,
    add_range_none_tombstones fids s r⟩

/-- Claim C4: performing the same `add_range` call twice yields a store
whose `overlaps(f, q)` result equals, for every field id `f` and query
range `q`, the result after performing it once. -/
theorem add_range_idempotent (s : TsmTombstone) (fids : List FieldId)
    (r : TimeRange) (bloom : Option (List Nat → Bool)) (f : FieldId)
    (q : TimeRange) :
    ((s.add_range fids r bloom).add_range fids r bloom).overlaps f q
      = (s.add_range fids r bloom).overlaps f q := by
  have core : ∀ (s2 : TsmTombstone) (kept : List FieldId),
      ((s2.add_range kept r none).add_range kept r none).overlaps f q
        = (s2.add_range kept r none).overlaps f q := by
    intro s2 kept
    rw [overlaps_eq_any, overlaps_eq_any]
    simp only [add_range_none_tombstones, mapGetD_foldl_push,
      List.any_append]
    cases h1 : (mapGetD s2.tombstones f).any (fun t => t.overlaps q) <;>
      cases h2 : ((kept.filter (fun g => decide (g = f))).map
          (fun _ => r)).any (fun t => t.overlaps q) <;>
        simp [h1, h2]
  cases bloom with
  | none => exact core s fids
  | some fl =>
    rw [add_range_some_eq_filter, add_range_some_eq_filter]
    exact core s (fids.filter (fun g => fl (u64_to_be_bytes g)))

/-- Claim C5: while rebuilding the map, `load_all` skips a record whose CRC
validation fails and continues with the next record, so it computes the same
result as on the stream without the corrupt record — later well-formed
records are still loaded. -/
theorem load_all_skips_crc_failure (xs ys : List ReadResult)
    (m : TombstoneMap) :
    load_all (xs ++ ReadResult.hashCheckFailed :: ys) m
      = load_all (xs ++ ys) m := by
  induction xs generalizing m with
  | nil => rfl
  | cons x rest ih =>
    cases x with
    | ok data =>
      by_cases h : data.length < ENTRY_LEN
      · simp [load_all, h]
      · simp [load_all, h, ih]
    | eof => rfl
    | hashCheckFailed => simpa [load_all] using ih m
    | otherErr => rfl

/-- Claim C10: when `load_all` reads a record whose payload is shorter than
24 bytes it stops at that record — whatever follows is never loaded — yet
returns success, keeping the entries read before that point. -/
theorem load_all_short_record_halts (data : List Nat)
    (h : data.length < ENTRY_LEN) :
    (∀ (ys : List ReadResult) (m : TombstoneMap),
        load_all (ReadResult.ok data :: ys) m = Except.ok m)
    ∧ ∀ (xs ys zs : List ReadResult) (m : TombstoneMap),
        load_all (xs ++ ReadResult.ok data :: ys) m
          = load_all (xs ++ ReadResult.ok data :: zs) m := by
  constructor
  · intro ys m
    simp [load_all, h]
  · intro xs ys zs m
    induction xs generalizing m with
    | nil => simp [load_all, h]
    | cons x rest ih =>
      cases x with
      | ok d2 =>
        by_cases h2 : d2.length < ENTRY_LEN
        · simp [load_all, h2]
        · simp [load_all, h2, ih]
      | eof => rfl
      | hashCheckFailed => simpa [load_all] using ih m
      | otherErr => rfl

/-- Witness for claim C10: a 2-byte record halts loading before a
well-formed record, and the result is still success with the empty map. -/
theorem load_all_short_record_halts_witness :
    load_all [ReadResult.ok [1, 2],
      ReadResult.ok (tombstone_record 7 ⟨0, 9⟩)] [] = Except.ok [] :=
  (load_all_short_record_halts [1, 2] (by decide)).1
    [ReadResult.ok (tombstone_record 7 ⟨0, 9⟩)] []

/-- Claim C6: every record payload written by `add_range` is exactly 24
bytes — `field_id` as u64 BE in bytes 0..8, `min_ts` as i64 BE in bytes
8..16, `max_ts` as i64 BE in bytes 16..24 — and decoding it as `load_all`
does recovers exactly the original triple. -/
theorem tombstone_record_codec (field_id : Nat) (min_ts max_ts : Int)
    (hf : field_id < 2 ^ 64)
    (hmin1 : -2 ^ 63 ≤ min_ts) (hmin2 : min_ts < 2 ^ 63)
    (hmax1 : -2 ^ 63 ≤ max_ts) (hmax2 : max_ts < 2 ^ 63) :
    (tombstone_record field_id ⟨min_ts, max_ts⟩).length = ENTRY_LEN
    ∧ (tombstone_record field_id ⟨min_ts, max_ts⟩).take 8
        = u64_to_be_bytes field_id
    ∧ ((tombstone_record field_id ⟨min_ts, max_ts⟩).drop 8).take 8
        = i64_to_be_bytes min_ts
    ∧ ((tombstone_record field_id ⟨min_ts, max_ts⟩).drop 16).take 8
        = i64_to_be_bytes max_ts
    ∧ decode_be_u64 ((tombstone_record field_id ⟨min_ts, max_ts⟩).take 8)
        = field_id
    ∧ decode_be_i64
        (((tombstone_record field_id ⟨min_ts, max_ts⟩).drop 8).take 8)
        = min_ts
    ∧ decode_be_i64
        (((tombstone_record field_id ⟨min_ts, max_ts⟩).drop 16).take 8)
        = max_ts := by
  have hlen : (tombstone_record field_id ⟨min_ts, max_ts⟩).length = ENTRY_LEN := by
    simp [tombstone_record, List.length_append, u64_to_be_bytes_length,
      i64_to_be_bytes_length, ENTRY_LEN]
  have htake : (tombstone_record field_id ⟨min_ts, max_ts⟩).take 8
      = u64_to_be_bytes field_id := by
    unfold tombstone_record
    rw [List.append_assoc]
    exact take8_append _ _ (u64_to_be_bytes_length field_id)
  have hdrop8 : (tombstone_record field_id ⟨min_ts, max_ts⟩).drop 8
      = i64_to_be_bytes min_ts ++ i64_to_be_bytes max_ts := by
    unfold tombstone_record
    rw [List.append_assoc]
    exact drop8_append _ _ (u64_to_be_bytes_length field_id)
  have hmid : ((tombstone_record field_id ⟨min_ts, max_ts⟩).drop 8).take 8
      = i64_to_be_bytes min_ts := by
    rw [hdrop8]
    exact take8_append _ _ (i64_to_be_bytes_length min_ts)
  have hdrop16 : (tombstone_record field_id ⟨min_ts, max_ts⟩).drop 16
      = i64_to_be_bytes max_ts := by
    have h2 : ((tombstone_record field_id ⟨min_ts, max_ts⟩).drop 8).drop 8
        = i64_to_be_bytes max_ts := by
      rw [hdrop8]
      exact drop8_append _ _ (i64_to_be_bytes_length min_ts)
    rw [List.drop_drop] at h2
    simpa using h2
  have hlast : ((tombstone_record field_id ⟨min_ts, max_ts⟩).drop 16).take 8
      = i64_to_be_bytes max_ts := by
    rw [hdrop16, ← i64_to_be_bytes_length max_ts, List.take_length]
  refine ⟨hlen, htake, hmid, hlast, ?_, ?_, ?_⟩
  · rw [htake]
    exact decode_encode_u64 field_id hf
  · rw [hmid]
    exact decode_encode_i64 min_ts hmin1 hmin2
  · rw [hlast]
    exact decode_encode_i64 max_ts hmax1 hmax2

/-- Witness for claim C6 at `(field_id, min_ts, max_ts) = (300, -7, 123)`. -/
theorem tombstone_record_codec_witness :
    (tombstone_record 300 ⟨-7, 123⟩).length = ENTRY_LEN
    ∧ (tombstone_record 300 ⟨-7, 123⟩).take 8 = u64_to_be_bytes 300
    ∧ ((tombstone_record 300 ⟨-7, 123⟩).drop 8).take 8 = i64_to_be_bytes (-7)
    ∧ ((tombstone_record 300 ⟨-7, 123⟩).drop 16).take 8 = i64_to_be_bytes 123
    ∧ decode_be_u64 ((tombstone_record 300 ⟨-7, 123⟩).take 8) = 300
    ∧ decode_be_i64 (((tombstone_record 300 ⟨-7, 123⟩).drop 8).take 8) = -7
    ∧ decode_be_i64 (((tombstone_record 300 ⟨-7, 123⟩).drop 16).take 8) = 123 :=
  tombstone_record_codec 300 (-7) 123 (by norm_num) (by norm_num)
    (by norm_num) (by norm_num) (by norm_num)

/-- Claim C9: function `get_overlapped_time_ranges(f, r)` returns `none` iff
`overlaps(f, r)` is false, and any `some trs` it returns is exactly the
subsequence of the stored ranges of `f` overlapping `r`, in stored order and
never empty. -/
theorem get_overlapped_consistent (s : TsmTombstone) (f : FieldId)
    (q : TimeRange) :
    (s.get_overlapped_time_ranges f q = none ↔ s.overlaps f q = false)
    ∧ ∀ trs, s.get_overlapped_time_ranges f q = some trs →
        trs = (mapGetD s.tombstones f).filter (fun t => t.overlaps q)
        ∧ trs ≠ [] ∧ s.overlaps f q = true := by
  unfold TsmTombstone.get_overlapped_time_ranges TsmTombstone.overlaps
  cases hm : mapGet s.tombstones f with
  | none =>
    refine ⟨by simp, ?_⟩
    intro trs htrs
    cases htrs
  | some l =>
    dsimp only
    by_cases he : (l.filter (fun t => t.overlaps q)).isEmpty
    · have hnil : l.filter (fun t => t.overlaps q) = [] := by
        simpa [List.isEmpty_iff] using he
      have hany : l.any (fun t => t.overlaps q) = false := by
        rw [List.any_eq_false]
        intro x hxl
        have := List.filter_eq_nil_iff.mp hnil x hxl
        simpa using this
      rw [if_pos he]
      refine ⟨by simp [hany], ?_⟩
      intro trs htrs
      cases htrs
    · have hne : l.filter (fun t => t.overlaps q) ≠ [] := by
        simpa [List.isEmpty_iff] using he
      have hany : l.any (fun t => t.overlaps q) = true := by
        obtain ⟨x, hx⟩ := List.exists_mem_of_ne_nil _ hne
        have hx2 := List.mem_filter.mp hx
        exact List.any_eq_true.mpr ⟨x, hx2.1, hx2.2⟩
      rw [if_neg he]
      refine ⟨by simp [hany], ?_⟩
      intro trs htrs
      injection htrs with htrs
      refine ⟨?_, ?_, hany⟩
      · rw [← htrs, mapGetD, hm]
        rfl
      · rw [← htrs]
        exact hne

/-- Witness for claim C9 on a store holding range `[1,100]` for field 1,
queried with `[2,99]`. -/
theorem get_overlapped_consistent_witness :
    ([TimeRange.mk 1 100]
        = (mapGetD (TsmTombstone.mk [(1, [⟨1, 100⟩])] []).tombstones 1).filter
            (fun t => t.overlaps ⟨2, 99⟩))
    ∧ ([TimeRange.mk 1 100] : List TimeRange) ≠ []
    ∧ (TsmTombstone.mk [(1, [⟨1, 100⟩])] []).overlaps 1 ⟨2, 99⟩ = true :=
  (get_overlapped_consistent ⟨[(1, [⟨1, 100⟩])], []⟩ 1 ⟨2, 99⟩).2
    [⟨1, 100⟩] (by decide)

/-- Claim C7: task `CopyVnodeTask::execute` issues
`AddRaftFollower(replica_id, node_id)` — with `replica_id` the replica-set id of the vnode from the metadata service — exactly when the coordinator
reports raft replication; otherwise it issues `Copy(vnode_id, node_id)`; in
both modes a successful command yields `Output::Nil`. -/
theorem copy_vnode_dispatch (stmt : CopyVnode) (qsm : QueryStateMachine) :
    (∀ info : VnodeAllInfo, qsm.using_raft_replication = true →
        qsm.get_vnode_all_info stmt.vnode_id = Except.ok info →
        qsm.vnode_manager
            (VnodeManagerCmdType.AddRaftFollower info.repl_set_id stmt.node_id)
          = Except.ok () →
        CopyVnodeTask.execute stmt qsm
          = Except.ok (Output.Nil,
              VnodeManagerCmdType.AddRaftFollower info.repl_set_id stmt.node_id))
    ∧ (qsm.using_raft_replication = false →
        qsm.vnode_manager (VnodeManagerCmdType.Copy stmt.vnode_id stmt.node_id)
          = Except.ok () →
        CopyVnodeTask.execute stmt qsm
          = Except.ok (Output.Nil,
              VnodeManagerCmdType.Copy stmt.vnode_id stmt.node_id))
    ∧ ∀ out cmd, CopyVnodeTask.execute stmt qsm = Except.ok (out, cmd) →
        out = Output.Nil
        ∧ (qsm.using_raft_replication = true →
            ∃ info, qsm.get_vnode_all_info stmt.vnode_id = Except.ok info
              ∧ cmd = VnodeManagerCmdType.AddRaftFollower info.repl_set_id
                  stmt.node_id)
        ∧ (qsm.using_raft_replication = false →
            cmd = VnodeManagerCmdType.Copy stmt.vnode_id stmt.node_id) := by
  refine ⟨?_, ?_, ?_⟩
  · intro info hr hi hv
    simp [CopyVnodeTask.execute, hr, hi, hv]
  · intro hr hv
    simp [CopyVnodeTask.execute, hr, hv]
  · intro out cmd hx
    by_cases hr : qsm.using_raft_replication
    · cases hi : qsm.get_vnode_all_info stmt.vnode_id with
      | error e =>
        simp [CopyVnodeTask.execute, hr, hi] at hx
      | ok info =>
        cases hv : qsm.vnode_manager
            (VnodeManagerCmdType.AddRaftFollower info.repl_set_id
              stmt.node_id) with
        | error e =>
          simp [CopyVnodeTask.execute, hr, hi, hv] at hx
        | ok u =>
          have hexec : CopyVnodeTask.execute stmt qsm
              = Except.ok (Output.Nil,
                  VnodeManagerCmdType.AddRaftFollower info.repl_set_id
                    stmt.node_id) := by
            simp [CopyVnodeTask.execute, hr, hi, hv]
          rw [hexec] at hx
          injection hx with hp
          refine ⟨(congrArg Prod.fst hp).symm,
            fun _ => ⟨info, rfl, (congrArg Prod.snd hp).symm⟩, fun hf => ?_⟩
          rw [hr] at hf
          cases hf
    · have hrf : qsm.using_raft_replication = false := by
        simpa using hr
      cases hv : qsm.vnode_manager
          (VnodeManagerCmdType.Copy stmt.vnode_id stmt.node_id) with
      | error e =>
        simp [CopyVnodeTask.execute, hrf, hv] at hx
      | ok u =>
        have hexec : CopyVnodeTask.execute stmt qsm
            = Except.ok (Output.Nil,
                VnodeManagerCmdType.Copy stmt.vnode_id stmt.node_id) := by
          simp [CopyVnodeTask.execute, hrf, hv]
        rw [hexec] at hx
        injection hx with hp
        refine ⟨(congrArg Prod.fst hp).symm, fun ht => ?_,
          fun _ => (congrArg Prod.snd hp).symm⟩
        rw [hrf] at ht
        cases ht

/-- Witness for claim C7: a raft-mode environment resolving replica-set id
42 issues `AddRaftFollower(42, 9)`; a non-raft environment issues
`Copy(5, 9)`. -/
theorem copy_vnode_dispatch_witness :
    (CopyVnodeTask.execute ⟨5, 9⟩
        ⟨true, fun _ => Except.ok ⟨42⟩, fun _ => Except.ok ()⟩
      = Except.ok (Output.Nil, VnodeManagerCmdType.AddRaftFollower 42 9))
    ∧ (CopyVnodeTask.execute ⟨5, 9⟩
        ⟨false, fun _ => Except.ok ⟨42⟩, fun _ => Except.ok ()⟩
      = Except.ok (Output.Nil, VnodeManagerCmdType.Copy 5 9)) :=
  ⟨(copy_vnode_dispatch ⟨5, 9⟩
      ⟨true, fun _ => Except.ok ⟨42⟩, fun _ => Except.ok ()⟩).1
      ⟨42⟩ rfl rfl rfl,
   (copy_vnode_dispatch ⟨5, 9⟩
      ⟨false, fun _ => Except.ok ⟨42⟩, fun _ => Except.ok ()⟩).2.1 rfl rfl⟩

/-- Claim C8: function `get_conn` returns the cached channel without dialling (for
every dial environment) when the shared map contains the address, and
otherwise dials, inserts the channel under the address, and returns it; each
of the three RPC senders obtains its channel through `get_conn` and wraps
its payload in an envelope carrying the `group_id` of the target node. -/
theorem network_conn_shared_cache :
    (∀ (env : DialEnv) (m : ConnMap) (addr : String) (c : Channel),
        connMapGet m addr = some c →
        NetworkConn.get_conn env m addr = Except.ok (c, m))
    ∧ (∀ (env : DialEnv) (m : ConnMap) (addr : String) (c : Channel),
        connMapGet m addr = none → env.dial addr = Except.ok c →
        NetworkConn.get_conn env m addr
            = Except.ok (c, connMapInsert m addr c)
          ∧ connMapGet (connMapInsert m addr c) addr = some c)
    ∧ (∀ (client : TargetClient) (env : DialEnv) (m : ConnMap) (d : String)
        (req : GroupEnvelope) (ch : Channel) (m2 : ConnMap),
        client.send_vote env m d = Except.ok (req, ch, m2) →
        req = ⟨d, client.target_node.group_id⟩
          ∧ NetworkConn.get_conn env m client.target_node.address
              = Except.ok (ch, m2))
    ∧ (∀ (client : TargetClient) (env : DialEnv) (m : ConnMap) (d : String)
        (req : GroupEnvelope) (ch : Channel) (m2 : ConnMap),
        client.send_append_entries env m d = Except.ok (req, ch, m2) →
        req = ⟨d, client.target_node.group_id⟩
          ∧ NetworkConn.get_conn env m client.target_node.address
              = Except.ok (ch, m2))
    ∧ (∀ (client : TargetClient) (env : DialEnv) (m : ConnMap) (d : String)
        (req : GroupEnvelope) (ch : Channel) (m2 : ConnMap),
        client.send_install_snapshot env m d = Except.ok (req, ch, m2) →
        req = ⟨d, client.target_node.group_id⟩
          ∧ NetworkConn.get_conn env m client.target_node.address
              = Except.ok (ch, m2)) := by
  refine ⟨?_, ?_, ?_, ?_, ?_⟩
  · intro env m addr c h
    simp [NetworkConn.get_conn, h]
  · intro env m addr c h1 h2
    exact ⟨by simp [NetworkConn.get_conn, h1, h2], connMapGet_insert m addr c⟩
  · intro client env m d req ch m2 hx
    unfold TargetClient.send_vote at hx
    cases hg : NetworkConn.get_conn env m client.target_node.address with
    | error e =>
      rw [hg] at hx
      cases hx
    | ok p =>
      obtain ⟨ch2, m3⟩ := p
      rw [hg] at hx
      dsimp only at hx
      injection hx with hp
      cases hp
      exact ⟨rfl, rfl⟩
  · intro client env m d req ch m2 hx
    unfold TargetClient.send_append_entries at hx
    cases hg : NetworkConn.get_conn env m client.target_node.address with
    | error e =>
      rw [hg] at hx
      cases hx
    | ok p =>
      obtain ⟨ch2, m3⟩ := p
      rw [hg] at hx
      dsimp only at hx
      injection hx with hp
      cases hp
      exact ⟨rfl, rfl⟩
  · intro client env m d req ch m2 hx
    unfold TargetClient.send_install_snapshot at hx
    cases hg : NetworkConn.get_conn env m client.target_node.address with
    | error e =>
      rw [hg] at hx
      cases hx
    | ok p =>
      obtain ⟨ch2, m3⟩ := p
      rw [hg] at hx
      dsimp only at hx
      injection hx with hp
      cases hp
      exact ⟨rfl, rfl⟩

/-- Witness for claim C8: a cached hit on `"a"`, a dial-and-insert on
`"b"`, and a `send_vote` whose envelope carries group id 5. -/
theorem network_conn_shared_cache_witness :
    (NetworkConn.get_conn ⟨fun _ => Except.ok 7⟩ [("a", 3)] "a"
        = Except.ok (3, [("a", 3)]))
    ∧ (NetworkConn.get_conn ⟨fun _ => Except.ok 7⟩ [] "b"
          = Except.ok (7, connMapInsert [] "b" 7)
        ∧ connMapGet (connMapInsert [] "b" 7) "b" = some 7)
    ∧ ((⟨"pay", 5⟩ : GroupEnvelope)
          = ⟨"pay", (TargetClient.mk 1 ⟨"a", 5⟩ false).target_node.group_id⟩
        ∧ NetworkConn.get_conn ⟨fun _ => Except.ok 7⟩ [("a", 3)]
            (TargetClient.mk 1 ⟨"a", 5⟩ false).target_node.address
          = Except.ok (3, [("a", 3)])) :=
  ⟨network_conn_shared_cache.1 ⟨fun _ => Except.ok 7⟩ [("a", 3)] "a" 3 rfl,
   network_conn_shared_cache.2.1 ⟨fun _ => Except.ok 7⟩ [] "b" 7 rfl rfl,
   network_conn_shared_cache.2.2.1 ⟨1, ⟨"a", 5⟩, false⟩
     ⟨fun _ => Except.ok 7⟩ [("a", 3)] "pay" ⟨"pay", 5⟩ 3 [("a", 3)] rfl⟩
